import Mathlib

/-!
# Verification of the videowebview directory scanner, cache and watcher

This file embeds the core of the `videowebview` video server: the
recursive directory scanners (`scanDirectory` from the synchronous
revision in `server.js` and `scanDirectoryAsync` from the cached
revision), the cache coordinator (`refreshCache`, the `/api/files`
endpoint) and the debounced filesystem watcher (`setupWatcher`), and
proves the specified properties about them.

The filesystem is modelled as a tree (`FSNode`) in which I/O failures
are explicit: a directory may be unreadable (`readdir` fails) and an
entry's metadata may be unavailable (`stat` fails).  JavaScript's
locale-aware `String.prototype.localeCompare` is abstracted as a
comparison parameter `lcmp`; the cooperative async scheduling of the
server is modelled as a small-step state machine over `SysState`.
-/

/-- The fixed allow-list of video file extensions (`VIDEO_EXTENSIONS`). -/
def VIDEO_EXTENSIONS : List String := [".mp4", ".mkv", ".webm", ".avi", ".mov"]

/-- A filesystem subtree as observable through `fs.readdir` / `fs.stat`:
a regular file with a size, a directory with named entries (readable or
not: `dir false _` is a directory whose listing fails), or an entry on
which `stat` itself fails. -/
inductive FSNode where
  | file (size : Nat)
  | dir (readable : Bool) (entries : List (String × FSNode))
  | statFail
  deriving Repr

/-- Result of a successful `fs.stat`: whether the entry is a directory,
and its size in bytes. -/
structure FileStat where
  isDir : Bool
  size : Nat
  deriving DecidableEq, Repr

/-- Model of `fs.stat` on an entry: `none` models a thrown error. -/
def statOf : FSNode → Option FileStat
  | .file sz => some ⟨false, sz⟩
  | .dir _ _ => some ⟨true, 0⟩
  | .statFail => none

/-- Characters of the final path component (after the last `/`), as in
Node's `path` module over forward-slash paths. -/
def basenameChars (cs : List Char) : List Char :=
  cs.foldl (fun acc c => if c = '/' then [] else acc ++ [c]) []

/-- Index of the last occurrence of a character in a list, if any. -/
def lastIdxOf (c : Char) : List Char → Option Nat
  | [] => none
  | x :: xs =>
    match lastIdxOf c xs with
    | some i => some (i + 1)
    | none => if x = c then some 0 else none

/-- Model of Node's `path.extname`: the suffix of the basename starting
at its last dot, except that a dot in the leading position does not
start an extension (so `".bashrc"` has no extension). -/
def extname (s : String) : String :=
  let b := basenameChars s.data
  match lastIdxOf '.' b with
  | some i => if i = 0 then "" else String.mk (b.drop i)
  | none => ""

/-- Model of JS `String.prototype.toLowerCase` on ASCII strings. -/
def toLowerCase (s : String) : String :=
  String.mk (s.data.map Char.toLower)

/-- Model of `file.startsWith('.')`: the first character is a dot. -/
def startsWithDot (s : String) : Bool :=
  match s.data with
  | c :: _ => c = '.'
  | [] => false

/-- The entry filter shared by both scanners: skip hidden entries and
the `node_modules` / `web_view` folders. -/
def includeEntry (name : String) : Bool :=
  !startsWithDot name && name != "node_modules" && name != "web_view"

/-- Root-relative path of a child entry: the model of
`path.relative(ROOT_DIR, path.join(dir, file))` when `dir` itself lies
at root-relative path `relPath` (the scan root having path `""`). -/
def childRelPath (relPath name : String) : String :=
  if relPath = "" then name else relPath ++ "/" ++ name

/-- Model of `.replace(/\\/g, '/')`: every backslash becomes a slash. -/
def slashNormalize (s : String) : String :=
  String.mk (s.data.map fun c => if c = '\\' then '/' else c)

/-- Three-way code-unit comparison of character lists. -/
def charListCompare : List Char → List Char → Int
  | [], [] => 0
  | [], _ :: _ => -1
  | _ :: _, [] => 1
  | a :: as, b :: bs =>
    if a.toNat < b.toNat then -1
    else if b.toNat < a.toNat then 1
    else charListCompare as bs

/-- Modelled from the spec: `String.prototype.localeCompare` under a
locale whose collation on these names is plain code-unit order (the
server never fixes a locale; any consistent comparator is admissible,
and the ordering theorems below are parametric in it — this concrete
model instantiates them and realizes the spec's example ordering). -/
def localeCompareModel (a b : String) : Int :=
  charListCompare a.data b.data

/-- A node of the tree served to clients: either a directory with
children or a video file with a size. -/
inductive TreeNode where
  | dir (name relativePath : String) (children : List TreeNode)
  | file (name relativePath : String) (size : Nat)
  deriving Repr

/-- The `name` field of a tree node. -/
def TreeNode.name : TreeNode → String
  | .dir n _ _ => n
  | .file n _ _ => n

/-- The `type` field of a tree node (`"directory"` or `"file"`). -/
def TreeNode.type : TreeNode → String
  | .dir _ _ _ => "directory"
  | .file _ _ _ => "file"

/-- The `relativePath` field of a tree node. -/
def TreeNode.relativePath : TreeNode → String
  | .dir _ p _ => p
  | .file _ p _ => p

/-- The sort comparator of both scanners:
`if (a.type === b.type) return a.name.localeCompare(b.name);
 return a.type === 'directory' ? -1 : 1;`
with `localeCompare` abstracted as `lcmp`. -/
def compareNodes (lcmp : String → String → Int) (a b : TreeNode) : Int :=
  if a.type = b.type then lcmp a.name b.name
  else if a.type = "directory" then -1 else 1

/-- The boolean "less or equal" induced by the comparator, as consumed
by a comparator-based sort. -/
def nodeLE (lcmp : String → String → Int) (a b : TreeNode) : Bool :=
  decide (compareNodes lcmp a b ≤ 0)

/-- The sort stage `results.sort((a, b) => ...)`: a stable sort by the comparator. -/
def sortNodes (lcmp : String → String → Int) (l : List TreeNode) : List TreeNode :=
  l.mergeSort (nodeLE lcmp)

mutual

/-- The async scanner `scanDirectoryAsync` (cached revision): list the directory (an
unreadable directory or a non-directory yields `[]`), process each
non-skipped entry into an optional node, drop the `null`s, and sort. -/
def scanDirectoryAsync (lcmp : String → String → Int) (fs : FSNode) (relPath : String) :
    List TreeNode :=
  match fs with
  | .dir true list => sortNodes lcmp ((scanEntriesAsync lcmp relPath list).filterMap id)
  | _ => []
termination_by sizeOf fs

/-- The `list.filter(...).map(async (file) => ...)` stage of
`scanDirectoryAsync`: skipped entries contribute nothing, every other
entry contributes one optional node (`none` models `null`). -/
def scanEntriesAsync (lcmp : String → String → Int) (relPath : String)
    (es : List (String × FSNode)) : List (Option TreeNode) :=
  match es with
  | [] => []
  | (name, child) :: rest =>
    if includeEntry name then
      (match statOf child with
       | none => none
       | some st =>
         if st.isDir then
           let children := scanDirectoryAsync lcmp child (childRelPath relPath name)
           if children.length > 0 then
             some (.dir name (slashNormalize (childRelPath relPath name)) children)
           else none
         else
           let ext := toLowerCase (extname name)
           if VIDEO_EXTENSIONS.contains ext then
             some (.file name (slashNormalize (childRelPath relPath name)) st.size)
           else none) :: scanEntriesAsync lcmp relPath rest
    else scanEntriesAsync lcmp relPath rest
termination_by sizeOf es

end

mutual

/-- The sync scanner `scanDirectory` (synchronous revision, `server.js`): same traversal
with results accumulated by `results.push(...)` inside `forEach`. -/
def scanDirectory (lcmp : String → String → Int) (fs : FSNode) (relPath : String) :
    List TreeNode :=
  match fs with
  | .dir true list => sortNodes lcmp (scanEntriesSync lcmp relPath list)
  | _ => []
termination_by sizeOf fs

/-- The `list.forEach(file => ...)` body of `scanDirectory`: each entry
pushes zero or one node, in listing order. -/
def scanEntriesSync (lcmp : String → String → Int) (relPath : String)
    (es : List (String × FSNode)) : List TreeNode :=
  match es with
  | [] => []
  | (name, child) :: rest =>
    (if includeEntry name then
      match statOf child with
      | none => []
      | some st =>
        if st.isDir then
          let children := scanDirectory lcmp child (childRelPath relPath name)
          if children.length > 0 then
            [.dir name (slashNormalize (childRelPath relPath name)) children]
          else []
        else
          let ext := toLowerCase (extname name)
          if VIDEO_EXTENSIONS.contains ext then
            [.file name (slashNormalize (childRelPath relPath name)) st.size]
          else []
     else []) ++ scanEntriesSync lcmp relPath rest
termination_by sizeOf es

end

/-- The value the async scanner's per-entry callback resolves with for
one non-skipped entry (`none` models `null`). -/
def entryResult (lcmp : String → String → Int) (relPath name : String) (child : FSNode) :
    Option TreeNode :=
  match statOf child with
  | none => none
  | some st =>
    if st.isDir then
      let children := scanDirectoryAsync lcmp child (childRelPath relPath name)
      if children.length > 0 then
        some (.dir name (slashNormalize (childRelPath relPath name)) children)
      else none
    else
      let ext := toLowerCase (extname name)
      if VIDEO_EXTENSIONS.contains ext then
        some (.file name (slashNormalize (childRelPath relPath name)) st.size)
      else none

/-- Boolean pairwise check over a list of nodes. -/
def pairwiseB (le : TreeNode → TreeNode → Bool) : List TreeNode → Bool
  | [] => true
  | a :: rest => rest.all (le a) && pairwiseB le rest

mutual

/-- No directory node anywhere in this tree has empty `children`. -/
def noEmptyDirs : TreeNode → Bool
  | .file _ _ _ => true
  | .dir _ _ cs => !cs.isEmpty && noEmptyDirsList cs
termination_by n => sizeOf n

/-- Predicate `noEmptyDirs` holding of every tree in the list. -/
def noEmptyDirsList : List TreeNode → Bool
  | [] => true
  | n :: rest => noEmptyDirs n && noEmptyDirsList rest
termination_by l => sizeOf l

end

mutual

/-- The ordering invariant at every depth below this node: each
directory's children list is pairwise ordered by the sort comparator
(directories before files, same kind ascending by name under `lcmp`). -/
def nodeSorted (lcmp : String → String → Int) : TreeNode → Bool
  | .file _ _ _ => true
  | .dir _ _ cs => pairwiseB (nodeLE lcmp) cs && nodesSorted lcmp cs
termination_by n => sizeOf n

/-- Predicate `nodeSorted` holding of every tree in the list. -/
def nodesSorted (lcmp : String → String → Int) : List TreeNode → Bool
  | [] => true
  | n :: rest => nodeSorted lcmp n && nodesSorted lcmp rest
termination_by l => sizeOf l

end

/-- True when `s` contains no backslash character. -/
def noBackslash (s : String) : Bool :=
  s.data.all (fun c => c ≠ '\\')

mutual

/-- relativePath consistency below a parent whose own relativePath is
`parent` (`""` for the scan root): this node's `relativePath` extends
its parent's with `/` and its name (or is just its name at top level),
contains no backslash, and the same holds recursively for children. -/
def relPathsOk (parent : String) : TreeNode → Bool
  | .dir name rp cs => (rp == childRelPath parent name) && noBackslash rp && relPathsOkList rp cs
  | .file name rp _ => (rp == childRelPath parent name) && noBackslash rp
termination_by n => sizeOf n

/-- Predicate `relPathsOk parent` holding of every tree in the list. -/
def relPathsOkList (parent : String) : List TreeNode → Bool
  | [] => true
  | n :: rest => relPathsOk parent n && relPathsOkList parent rest
termination_by l => sizeOf l

end

mutual

/-- Every entry name in the filesystem subtree is backslash-free (true
of every real filesystem the server scans). -/
def cleanNames : FSNode → Bool
  | .file _ => true
  | .statFail => true
  | .dir _ es => cleanNamesList es
termination_by fs => sizeOf fs

/-- Predicate `cleanNames` over a list of directory entries. -/
def cleanNamesList : List (String × FSNode) → Bool
  | [] => true
  | (name, child) :: rest => noBackslash name && cleanNames child && cleanNamesList rest
termination_by es => sizeOf es

end

mutual

/-- No I/O operation in this subtree fails: every directory listing
succeeds and `stat` succeeds on every entry. -/
def noFailures : FSNode → Bool
  | .file _ => true
  | .statFail => false
  | .dir readable es => readable && noFailuresList es
termination_by fs => sizeOf fs

/-- Predicate `noFailures` over a list of directory entries. -/
def noFailuresList : List (String × FSNode) → Bool
  | [] => true
  | (_, child) :: rest => noFailures child && noFailuresList rest
termination_by es => sizeOf es

end

/-- The debounce window `DEBOUNCE_DELAY_MS`: 2000 ms. -/
def DEBOUNCE_DELAY_MS : Nat := 2000

/-- Outcome of one scan coroutine: the tree its promise resolves with,
or a thrown error. -/
inductive ScanOutcome where
  | success (tree : List TreeNode)
  | failure
  deriving Repr

/-- The server's shared mutable state (`cachedTree`, `isScanRunning`,
`debounceTimer` as the absolute time at which the pending timer fires),
the wall clock, and two instrumentation counters the JS runtime keeps
implicitly: how many scan coroutines are currently executing and how
many times `refreshCache` has been invoked. -/
structure SysState where
  now : Nat
  cachedTree : Option (List TreeNode)
  isScanRunning : Bool
  debounceDeadline : Option Nat
  runningScans : Nat
  refreshCalls : Nat
  deriving Repr

/-- Process start: `cachedTree = null`, no scan running, no timer. -/
def initState : SysState :=
  { now := 0, cachedTree := none, isScanRunning := false, debounceDeadline := none,
    runningScans := 0, refreshCalls := 0 }

/-- Model of `refreshCache()` up to its first suspension point: if a scan is
already in flight it returns immediately, otherwise it sets
`isScanRunning` and launches a scan coroutine.  The guard and the flag
assignment run atomically under cooperative scheduling. -/
def refreshCache (s : SysState) : SysState :=
  if s.isScanRunning then { s with refreshCalls := s.refreshCalls + 1 }
  else { s with refreshCalls := s.refreshCalls + 1, isScanRunning := true,
                runningScans := s.runningScans + 1 }

/-- The cache value after a scan concludes: on success the `try` block
stores the new tree, on failure the `catch` block leaves the old value. -/
def cacheAfter (outcome : ScanOutcome) (old : Option (List TreeNode)) :
    Option (List TreeNode) :=
  match outcome with
  | .success tree => some tree
  | .failure => old

/-- A running scan coroutine concludes: the cache becomes
`cacheAfter outcome` of its old value and the `finally` block clears
`isScanRunning` whatever the outcome.  With no scan running there is
nothing to conclude. -/
def concludeScan (outcome : ScanOutcome) (s : SysState) : SysState :=
  if s.runningScans = 0 then s
  else
    { s with runningScans := s.runningScans - 1, isScanRunning := false,
             cachedTree := cacheAfter outcome s.cachedTree }

/-- The `fs.watch` callback in `setupWatcher`: a named file with an
extension outside the video allow-list is ignored; any other event
cancels a pending debounce timer and arms a fresh one for
`DEBOUNCE_DELAY_MS` from now. -/
def watcherOnChange (_eventType : String) (filename : Option String) (s : SysState) : SysState :=
  let ignore : Bool :=
    match filename with
    | some fn =>
      let ext := toLowerCase (extname fn)
      ext != "" && !VIDEO_EXTENSIONS.contains ext
    | none => false
  if ignore then s
  else { s with debounceDeadline := some (s.now + DEBOUNCE_DELAY_MS) }

/-- Wall-clock time advances to `t`; if the pending debounce timer was
due by then it fires: it clears itself and invokes `refreshCache`. -/
def advanceTo (t : Nat) (s : SysState) : SysState :=
  match s.debounceDeadline with
  | some d =>
    if d ≤ t then { refreshCache { s with debounceDeadline := none } with now := t }
    else { s with now := t }
  | none => { s with now := t }

/-- External events driving the server. -/
inductive Event where
  | apiRefresh
  | scanConclude (outcome : ScanOutcome)
  | fsChange (t : Nat) (eventType : String) (filename : Option String)
  | elapse (t : Nat)

/-- One step of the event semantics: `POST /api/refresh` invokes
`refreshCache`; an in-flight scan may resolve; a filesystem
notification at time `t` first lets time advance to `t` (firing a due
debounce timer) and then runs the watcher callback; time may elapse. -/
def step (s : SysState) : Event → SysState
  | .apiRefresh => refreshCache s
  | .scanConclude outcome => concludeScan outcome s
  | .fsChange t eventType filename => watcherOnChange eventType filename (advanceTo t s)
  | .elapse t => advanceTo t s

/-- Run a sequence of events from a state. -/
def run (s : SysState) (es : List Event) : SysState :=
  es.foldl step s

/-- Responses of `GET /api/files`. -/
inductive ApiFilesResponse where
  | notReady (status : Nat) (loading : Bool)
  | full (status : Nat) (tree : List TreeNode)
  deriving Repr

/-- The `GET /api/files` handler: 503 with `loading: true` while
`cachedTree === null`, otherwise 200 with the cached tree. -/
def apiFiles (s : SysState) : ApiFilesResponse :=
  match s.cachedTree with
  | none => .notReady 503 true
  | some t => .full 200 t

/-! ## Characterization of the async scanner -/

theorem scanEntriesAsync_nil (lcmp : String → String → Int) (rp : String) :
    scanEntriesAsync lcmp rp [] = [] := by
  simp [scanEntriesAsync]

theorem scanEntriesAsync_cons (lcmp : String → String → Int) (rp name : String)
    (child : FSNode) (rest : List (String × FSNode)) :
    scanEntriesAsync lcmp rp ((name, child) :: rest) =
      if includeEntry name then
        entryResult lcmp rp name child :: scanEntriesAsync lcmp rp rest
      else scanEntriesAsync lcmp rp rest := by
  rw [scanEntriesAsync, entryResult]

theorem mem_scanEntriesAsync {lcmp : String → String → Int} {rp : String}
    {es : List (String × FSNode)} {o : Option TreeNode} :
    o ∈ scanEntriesAsync lcmp rp es ↔
      ∃ name child, (name, child) ∈ es ∧ includeEntry name = true ∧
        o = entryResult lcmp rp name child := by
  induction es with
  | nil => simp [scanEntriesAsync_nil]
  | cons e rest ih =>
    obtain ⟨name, child⟩ := e
    rw [scanEntriesAsync_cons]
    by_cases h : includeEntry name = true
    · rw [if_pos h]
      simp only [List.mem_cons, ih]
      constructor
      · rintro (rfl | ⟨n, c, hm, hi, rfl⟩)
        · exact ⟨name, child, Or.inl rfl, h, rfl⟩
        · exact ⟨n, c, Or.inr hm, hi, rfl⟩
      · rintro ⟨n, c, hm, hi, rfl⟩
        rcases hm with hm | hm
        · simp only [Prod.mk.injEq] at hm
          obtain ⟨rfl, rfl⟩ := hm
          exact Or.inl rfl
        · exact Or.inr ⟨n, c, hm, hi, rfl⟩
    · rw [if_neg h, ih]
      constructor
      · rintro ⟨n, c, hm, hi, rfl⟩
        exact ⟨n, c, List.mem_cons_of_mem _ hm, hi, rfl⟩
      · rintro ⟨n, c, hm, hi, rfl⟩
        rcases List.mem_cons.mp hm with hm' | hm'
        · exfalso
          simp only [Prod.mk.injEq] at hm'
          obtain ⟨rfl, rfl⟩ := hm'
          exact h hi
        · exact ⟨n, c, hm', hi, rfl⟩

theorem mem_scanDirectoryAsync {lcmp : String → String → Int} {list : List (String × FSNode)}
    {rp : String} {n : TreeNode} :
    n ∈ scanDirectoryAsync lcmp (.dir true list) rp ↔
      some n ∈ scanEntriesAsync lcmp rp list := by
  rw [scanDirectoryAsync]
  simp [sortNodes, List.mem_filterMap]

theorem noEmptyDirsList_eq_all (l : List TreeNode) :
    noEmptyDirsList l = l.all noEmptyDirs := by
  induction l with
  | nil => simp [noEmptyDirsList]
  | cons n rest ih => rw [noEmptyDirsList]; simp [ih]

theorem scan_noEmptyDirs_aux :
    ∀ k, ∀ fs : FSNode, sizeOf fs < k → ∀ (lcmp : String → String → Int) (rp : String)
      (n : TreeNode), n ∈ scanDirectoryAsync lcmp fs rp → noEmptyDirs n = true := by
  intro k
  induction k with
  | zero => intro fs h; omega
  | succ k ih =>
    intro fs hk lcmp rp n hn
    match fs with
    | .file _ => simp [scanDirectoryAsync] at hn
    | .statFail => simp [scanDirectoryAsync] at hn
    | .dir false es => simp [scanDirectoryAsync] at hn
    | .dir true es =>
      rw [mem_scanDirectoryAsync, mem_scanEntriesAsync] at hn
      obtain ⟨name, child, hmem, hinc, heq⟩ := hn
      have hszc : sizeOf child < k := by
        have h1 := List.sizeOf_lt_of_mem hmem
        have h2 : sizeOf (FSNode.dir true es) = 1 + sizeOf true + sizeOf es := by simp
        simp only [Prod.mk.sizeOf_spec] at h1
        omega
      match child with
      | .statFail => simp [entryResult, statOf] at heq
      | .file sz =>
        rw [entryResult] at heq
        simp only [statOf] at heq
        by_cases hv : VIDEO_EXTENSIONS.contains (toLowerCase (extname name)) = true
        · rw [if_neg (by simp), if_pos hv] at heq
          cases heq
          rw [noEmptyDirs]
        · rw [if_neg (by simp), if_neg hv] at heq
          cases heq
      | .dir r es2 =>
        rw [entryResult] at heq
        simp only [statOf] at heq
        rw [if_pos trivial] at heq
        by_cases hl : (scanDirectoryAsync lcmp (.dir r es2) (childRelPath rp name)).length > 0
        · rw [if_pos hl] at heq
          cases heq
          rw [noEmptyDirs]
          have hne : (scanDirectoryAsync lcmp (.dir r es2) (childRelPath rp name)).isEmpty = false := by
            cases hcs : scanDirectoryAsync lcmp (.dir r es2) (childRelPath rp name) with
            | nil => rw [hcs] at hl; simp at hl
            | cons a l => simp
          rw [hne]
          rw [noEmptyDirsList_eq_all]
          simp only [Bool.not_false, Bool.true_and]
          rw [List.all_eq_true]
          intro m hm
          exact ih (.dir r es2) hszc lcmp (childRelPath rp name) m hm
        · rw [if_neg hl] at heq
          cases heq

/-- C1: the scanner's output never contains a directory node with an
empty children sequence, at any depth: empty subtrees are pruned at
every level including the top. -/
theorem scan_output_no_empty_dirs (lcmp : String → String → Int) (fs : FSNode) (relPath : String) :
    noEmptyDirsList (scanDirectoryAsync lcmp fs relPath) = true := by
  rw [noEmptyDirsList_eq_all, List.all_eq_true]
  intro n hn
  exact scan_noEmptyDirs_aux (sizeOf fs + 1) fs (by omega) lcmp relPath n hn

/-! ## Ordering -/

theorem charListCompare_total : ∀ as bs : List Char,
    charListCompare as bs ≤ 0 ∨ charListCompare bs as ≤ 0 := by
  intro as
  induction as with
  | nil => intro bs; cases bs <;> simp [charListCompare]
  | cons a as ih =>
    intro bs
    cases bs with
    | nil => simp [charListCompare]
    | cons b bs =>
      simp only [charListCompare]
      split_ifs <;> first | (left; omega) | (right; omega) | (exact ih bs)

theorem charListCompare_trans : ∀ as bs cs : List Char,
    charListCompare as bs ≤ 0 → charListCompare bs cs ≤ 0 → charListCompare as cs ≤ 0 := by
  intro as
  induction as with
  | nil => intro bs cs _ _; cases cs <;> simp [charListCompare]
  | cons a as ih =>
    intro bs cs h1 h2
    cases bs with
    | nil => simp [charListCompare] at h1
    | cons b bs =>
      cases cs with
      | nil => simp [charListCompare] at h2
      | cons c cs =>
        simp only [charListCompare] at h1 h2 ⊢
        split_ifs at h1 h2 ⊢ <;> first | omega | exact ih bs cs h1 h2

theorem localeCompareModel_trans (a b c : String) :
    localeCompareModel a b ≤ 0 → localeCompareModel b c ≤ 0 → localeCompareModel a c ≤ 0 :=
  charListCompare_trans a.data b.data c.data

theorem localeCompareModel_total (a b : String) :
    localeCompareModel a b ≤ 0 ∨ localeCompareModel b a ≤ 0 :=
  charListCompare_total a.data b.data

theorem nodeLE_trans {lcmp : String → String → Int}
    (htrans : ∀ a b c, lcmp a b ≤ 0 → lcmp b c ≤ 0 → lcmp a c ≤ 0)
    (a b c : TreeNode) : nodeLE lcmp a b → nodeLE lcmp b c → nodeLE lcmp a c := by
  cases a <;> cases b <;> cases c <;>
    simp [nodeLE, compareNodes, TreeNode.type, TreeNode.name] <;>
    apply htrans

theorem nodeLE_total {lcmp : String → String → Int}
    (htotal : ∀ a b, lcmp a b ≤ 0 ∨ lcmp b a ≤ 0)
    (a b : TreeNode) : nodeLE lcmp a b || nodeLE lcmp b a := by
  cases a <;> cases b <;>
    simp [nodeLE, compareNodes, TreeNode.type, TreeNode.name] <;>
    apply htotal

theorem pairwiseB_eq_true_iff (le : TreeNode → TreeNode → Bool) (l : List TreeNode) :
    pairwiseB le l = true ↔ l.Pairwise (fun a b => le a b = true) := by
  induction l with
  | nil => simp [pairwiseB]
  | cons a rest ih => simp [pairwiseB, ih, List.all_eq_true, List.pairwise_cons]

theorem sortNodes_pairwise {lcmp : String → String → Int}
    (htrans : ∀ a b c, lcmp a b ≤ 0 → lcmp b c ≤ 0 → lcmp a c ≤ 0)
    (htotal : ∀ a b, lcmp a b ≤ 0 ∨ lcmp b a ≤ 0)
    (l : List TreeNode) : pairwiseB (nodeLE lcmp) (sortNodes lcmp l) = true := by
  rw [pairwiseB_eq_true_iff]
  exact List.sorted_mergeSort (nodeLE_trans htrans) (nodeLE_total htotal) l

theorem scan_pairwise {lcmp : String → String → Int}
    (htrans : ∀ a b c, lcmp a b ≤ 0 → lcmp b c ≤ 0 → lcmp a c ≤ 0)
    (htotal : ∀ a b, lcmp a b ≤ 0 ∨ lcmp b a ≤ 0)
    (fs : FSNode) (rp : String) :
    pairwiseB (nodeLE lcmp) (scanDirectoryAsync lcmp fs rp) = true := by
  match fs with
  | .file _ => simp [scanDirectoryAsync, pairwiseB]
  | .statFail => simp [scanDirectoryAsync, pairwiseB]
  | .dir false es => simp [scanDirectoryAsync, pairwiseB]
  | .dir true es =>
    rw [scanDirectoryAsync]
    exact sortNodes_pairwise htrans htotal _

theorem nodesSorted_eq_all (lcmp : String → String → Int) (l : List TreeNode) :
    nodesSorted lcmp l = l.all (nodeSorted lcmp) := by
  induction l with
  | nil => simp [nodesSorted]
  | cons n rest ih => rw [nodesSorted]; simp [ih]

theorem scan_nodeSorted_aux {lcmp : String → String → Int}
    (htrans : ∀ a b c, lcmp a b ≤ 0 → lcmp b c ≤ 0 → lcmp a c ≤ 0)
    (htotal : ∀ a b, lcmp a b ≤ 0 ∨ lcmp b a ≤ 0) :
    ∀ k, ∀ fs : FSNode, sizeOf fs < k → ∀ (rp : String) (n : TreeNode),
      n ∈ scanDirectoryAsync lcmp fs rp → nodeSorted lcmp n = true := by
  intro k
  induction k with
  | zero => intro fs h; omega
  | succ k ih =>
    intro fs hk rp n hn
    match fs with
    | .file _ => simp [scanDirectoryAsync] at hn
    | .statFail => simp [scanDirectoryAsync] at hn
    | .dir false es => simp [scanDirectoryAsync] at hn
    | .dir true es =>
      rw [mem_scanDirectoryAsync, mem_scanEntriesAsync] at hn
      obtain ⟨name, child, hmem, hinc, heq⟩ := hn
      have hszc : sizeOf child < k := by
        have h1 := List.sizeOf_lt_of_mem hmem
        have h2 : sizeOf (FSNode.dir true es) = 1 + sizeOf true + sizeOf es := by simp
        simp only [Prod.mk.sizeOf_spec] at h1
        omega
      match child with
      | .statFail => simp [entryResult, statOf] at heq
      | .file sz =>
        rw [entryResult] at heq
        simp only [statOf] at heq
        by_cases hv : VIDEO_EXTENSIONS.contains (toLowerCase (extname name)) = true
        · rw [if_neg (by simp), if_pos hv] at heq
          cases heq
          rw [nodeSorted]
        · rw [if_neg (by simp), if_neg hv] at heq
          cases heq
      | .dir r es2 =>
        rw [entryResult] at heq
        simp only [statOf] at heq
        rw [if_pos trivial] at heq
        by_cases hl : (scanDirectoryAsync lcmp (.dir r es2) (childRelPath rp name)).length > 0
        · rw [if_pos hl] at heq
          cases heq
          rw [nodeSorted]
          rw [scan_pairwise htrans htotal]
          rw [nodesSorted_eq_all]
          simp only [Bool.true_and]
          rw [List.all_eq_true]
          intro m hm
          exact ih (.dir r es2) hszc (childRelPath rp name) m hm
        · rw [if_neg hl] at heq
          cases heq

/-- The sibling listing of the spec's ordering example: entries
`Zebra.mp4`, `apple` (a directory containing a video) and `Banana.mkv`. -/
def orderingExampleFS : FSNode :=
  .dir true [("Zebra.mp4", .file 1), ("apple", .dir true [("v.mp4", .file 2)]),
             ("Banana.mkv", .file 3)]

/-- C2: within the top-level output and within every directory node's
children, directories precede files and entries of the same kind are
ascending by name — for every consistent comparator `lcmp` modelling
`localeCompare`; and on the spec's example siblings the output order is
`apple, Banana.mkv, Zebra.mp4`. -/
theorem scan_output_ordering :
    (∀ lcmp : String → String → Int,
      (∀ a b c, lcmp a b ≤ 0 → lcmp b c ≤ 0 → lcmp a c ≤ 0) →
      (∀ a b, lcmp a b ≤ 0 ∨ lcmp b a ≤ 0) →
      ∀ (fs : FSNode) (relPath : String),
        pairwiseB (nodeLE lcmp) (scanDirectoryAsync lcmp fs relPath) = true ∧
        nodesSorted lcmp (scanDirectoryAsync lcmp fs relPath) = true) ∧
    (scanDirectoryAsync localeCompareModel orderingExampleFS "").map TreeNode.name =
      ["apple", "Banana.mkv", "Zebra.mp4"] := by
  constructor
  · intro lcmp htrans htotal fs relPath
    refine ⟨scan_pairwise htrans htotal fs relPath, ?_⟩
    rw [nodesSorted_eq_all, List.all_eq_true]
    intro n hn
    exact scan_nodeSorted_aux htrans htotal (sizeOf fs + 1) fs (by omega) relPath n hn
  · simp [orderingExampleFS, scanDirectoryAsync, scanEntriesAsync, includeEntry, statOf,
      childRelPath, slashNormalize, extname, toLowerCase, basenameChars, lastIdxOf,
      VIDEO_EXTENSIONS, sortNodes, nodeLE, compareNodes, TreeNode.name, TreeNode.type,
      localeCompareModel, charListCompare, startsWithDot, List.mergeSort, List.merge]

/-- Witness for C2: the ordering theorem applied to the concrete
comparator `localeCompareModel` and the example filesystem. -/
theorem scan_output_ordering_witness :
    pairwiseB (nodeLE localeCompareModel)
        (scanDirectoryAsync localeCompareModel orderingExampleFS "") = true ∧
    nodesSorted localeCompareModel
        (scanDirectoryAsync localeCompareModel orderingExampleFS "") = true :=
  scan_output_ordering.1 localeCompareModel localeCompareModel_trans localeCompareModel_total
    orderingExampleFS ""

/-! ## Extension filtering (C3) -/

/-- C3: a (non-skipped) file entry of a scanned directory yields a
FileNode in the output exactly when its lower-cased extension is in the
video allow-list. -/
theorem scan_file_node_iff (lcmp : String → String → Int)
    (list : List (String × FSNode)) (relPath name : String) (sz : Nat)
    (hmem : (name, FSNode.file sz) ∈ list) (hinc : includeEntry name = true) :
    (∃ rp, TreeNode.file name rp sz ∈ scanDirectoryAsync lcmp (.dir true list) relPath) ↔
      toLowerCase (extname name) ∈ VIDEO_EXTENSIONS := by
  constructor
  · rintro ⟨rp, h⟩
    rw [mem_scanDirectoryAsync, mem_scanEntriesAsync] at h
    obtain ⟨n, c, hm, hi, heq⟩ := h
    match c with
    | .statFail => simp [entryResult, statOf] at heq
    | .dir r es2 =>
      rw [entryResult] at heq
      simp only [statOf] at heq
      rw [if_pos trivial] at heq
      by_cases hl : (scanDirectoryAsync lcmp (.dir r es2) (childRelPath relPath n)).length > 0
      · rw [if_pos hl] at heq
        cases heq
      · rw [if_neg hl] at heq
        cases heq
    | .file sz' =>
      rw [entryResult] at heq
      simp only [statOf] at heq
      rw [if_neg (by simp)] at heq
      by_cases hv : VIDEO_EXTENSIONS.contains (toLowerCase (extname n)) = true
      · rw [if_pos hv] at heq
        simp only [Option.some.injEq, TreeNode.file.injEq] at heq
        obtain ⟨rfl, -, -⟩ := heq
        exact List.mem_of_elem_eq_true hv
      · rw [if_neg hv] at heq
        cases heq
  · intro hv
    refine ⟨slashNormalize (childRelPath relPath name), ?_⟩
    rw [mem_scanDirectoryAsync, mem_scanEntriesAsync]
    refine ⟨name, .file sz, hmem, hinc, ?_⟩
    rw [entryResult]
    simp only [statOf]
    rw [if_neg (by simp), if_pos (List.elem_eq_true_of_mem hv)]

/-- Witness for C3: in a directory listing `clip.MP4` (5 bytes) and
`clip.txt` (7 bytes), the scanner emits a FileNode for `clip.MP4` and
none for `clip.txt`. -/
theorem scan_file_node_iff_witness :
    (∃ rp, TreeNode.file "clip.MP4" rp 5 ∈
        scanDirectoryAsync localeCompareModel
          (.dir true [("clip.MP4", .file 5), ("clip.txt", .file 7)]) "") ∧
    ¬ (∃ rp, TreeNode.file "clip.txt" rp 7 ∈
        scanDirectoryAsync localeCompareModel
          (.dir true [("clip.MP4", .file 5), ("clip.txt", .file 7)]) "") := by
  constructor
  · exact (scan_file_node_iff localeCompareModel _ "" "clip.MP4" 5 (by simp) (by decide)).mpr
      (by decide)
  · intro h
    have := (scan_file_node_iff localeCompareModel
      [("clip.MP4", .file 5), ("clip.txt", .file 7)] "" "clip.txt" 7 (by simp) (by decide)).mp h
    revert this
    decide

/-! ## Error recovery (C4) -/

theorem scanEntriesAsync_append (lcmp : String → String → Int) (rp : String)
    (l1 l2 : List (String × FSNode)) :
    scanEntriesAsync lcmp rp (l1 ++ l2) =
      scanEntriesAsync lcmp rp l1 ++ scanEntriesAsync lcmp rp l2 := by
  induction l1 with
  | nil => simp [scanEntriesAsync_nil]
  | cons e rest ih =>
    obtain ⟨name, child⟩ := e
    rw [List.cons_append, scanEntriesAsync_cons, scanEntriesAsync_cons]
    by_cases h : includeEntry name = true
    · rw [if_pos h, if_pos h, ih, List.cons_append]
    · rw [if_neg h, if_neg h, ih]

theorem scanAsync_unreadable (lcmp : String → String → Int)
    (es : List (String × FSNode)) (rp : String) :
    scanDirectoryAsync lcmp (.dir false es) rp = [] := by
  simp [scanDirectoryAsync]

/-- C4: the scanner absorbs every I/O failure locally: a directory
whose listing fails scans to the empty sequence (likewise a
non-directory), an entry whose `stat` fails contributes nothing, and a
subdirectory whose own listing fails contributes nothing — in both
cases the scan of the sibling entries and of every ancestor is exactly
the scan without the failing entry. -/
theorem scan_error_recovery (lcmp : String → String → Int) :
    (∀ (es : List (String × FSNode)) (rp : String),
        scanDirectoryAsync lcmp (.dir false es) rp = []) ∧
    (∀ (sz : Nat) (rp : String), scanDirectoryAsync lcmp (.file sz) rp = []) ∧
    (∀ rp : String, scanDirectoryAsync lcmp .statFail rp = []) ∧
    (∀ (l1 l2 : List (String × FSNode)) (name rp : String),
        scanDirectoryAsync lcmp (.dir true (l1 ++ (name, .statFail) :: l2)) rp =
          scanDirectoryAsync lcmp (.dir true (l1 ++ l2)) rp) ∧
    (∀ (l1 l2 : List (String × FSNode)) (name rp : String)
        (es : List (String × FSNode)),
        scanDirectoryAsync lcmp (.dir true (l1 ++ (name, .dir false es) :: l2)) rp =
          scanDirectoryAsync lcmp (.dir true (l1 ++ l2)) rp) := by
  refine ⟨scanAsync_unreadable lcmp, by intro sz rp; simp [scanDirectoryAsync],
    by intro rp; simp [scanDirectoryAsync], ?_, ?_⟩
  · intro l1 l2 name rp
    rw [scanDirectoryAsync, scanDirectoryAsync]
    rw [scanEntriesAsync_append, scanEntriesAsync_append, scanEntriesAsync_cons]
    by_cases h : includeEntry name = true
    · rw [if_pos h]
      have : entryResult lcmp rp name .statFail = none := by simp [entryResult, statOf]
      rw [this]
      simp [List.filterMap_append]
    · rw [if_neg h]
  · intro l1 l2 name rp es
    rw [scanDirectoryAsync, scanDirectoryAsync]
    rw [scanEntriesAsync_append, scanEntriesAsync_append, scanEntriesAsync_cons]
    by_cases h : includeEntry name = true
    · rw [if_pos h]
      have : entryResult lcmp rp name (.dir false es) = none := by
        rw [entryResult]
        simp only [statOf]
        rw [if_pos trivial, scanAsync_unreadable]
        simp
      rw [this]
      simp [List.filterMap_append]
    · rw [if_neg h]

/-! ## Sync/async refinement (C9) -/

theorem scanEntriesSync_nil (lcmp : String → String → Int) (rp : String) :
    scanEntriesSync lcmp rp [] = [] := by
  simp [scanEntriesSync]

theorem scan_sync_eq_async_aux :
    ∀ k : Nat,
      (∀ fs : FSNode, sizeOf fs < k → ∀ (lcmp : String → String → Int) (rp : String),
        scanDirectory lcmp fs rp = scanDirectoryAsync lcmp fs rp) ∧
      (∀ es : List (String × FSNode), sizeOf es < k →
        ∀ (lcmp : String → String → Int) (rp : String),
        scanEntriesSync lcmp rp es = (scanEntriesAsync lcmp rp es).filterMap id) := by
  intro k
  induction k with
  | zero => constructor <;> (intro x h; omega)
  | succ k ih =>
    constructor
    · intro fs hk lcmp rp
      match fs with
      | .file _ => simp [scanDirectory, scanDirectoryAsync]
      | .statFail => simp [scanDirectory, scanDirectoryAsync]
      | .dir false es => simp [scanDirectory, scanDirectoryAsync]
      | .dir true es =>
        rw [scanDirectory, scanDirectoryAsync]
        have hes : sizeOf es < k := by
          have : sizeOf (FSNode.dir true es) = 1 + sizeOf true + sizeOf es := by simp
          omega
        rw [ih.2 es hes lcmp rp]
    · intro es hk lcmp rp
      match es with
      | [] => simp [scanEntriesSync_nil, scanEntriesAsync_nil]
      | (name, child) :: rest =>
        have hsz : sizeOf ((name, child) :: rest) = 1 + (1 + sizeOf name + sizeOf child) + sizeOf rest := by
          simp
        have hchild : sizeOf child < k := by omega
        have hrest : sizeOf rest < k := by omega
        rw [scanEntriesSync, scanEntriesAsync_cons]
        by_cases hinc : includeEntry name = true
        · rw [if_pos hinc, if_pos hinc, List.filterMap_cons]
          rw [ih.2 rest hrest lcmp rp]
          match child with
          | .statFail => simp [entryResult, statOf]
          | .file sz =>
            by_cases hv : toLowerCase (extname name) ∈ VIDEO_EXTENSIONS
            · simp [entryResult, statOf, hv, List.filterMap_cons]
            · simp [entryResult, statOf, hv, List.filterMap_cons]
          | .dir r es2 =>
            rw [entryResult]
            simp only [statOf]
            rw [if_pos trivial, if_pos trivial]
            rw [ih.1 (.dir r es2) hchild lcmp (childRelPath rp name)]
            by_cases hl :
                (scanDirectoryAsync lcmp (.dir r es2) (childRelPath rp name)).length > 0
            · rw [if_pos hl, if_pos hl]
              simp
            · rw [if_neg hl, if_neg hl]
              simp
        · rw [if_neg hinc, if_neg hinc, ih.2 rest hrest lcmp rp]
          simp

/-- C9: on a filesystem where no I/O operation fails, the synchronous
scanner of the earlier revision (`scanDirectory`) and the asynchronous
scanner of the cached revision (`scanDirectoryAsync`) produce
structurally identical trees. -/
theorem scan_sync_async_agree (lcmp : String → String → Int) (fs : FSNode)
    (_h : noFailures fs = true) (relPath : String) :
    scanDirectory lcmp fs relPath = scanDirectoryAsync lcmp fs relPath :=
  (scan_sync_eq_async_aux (sizeOf fs + 1)).1 fs (by omega) lcmp relPath

/-- Witness for C9: both scanners agree on a concrete two-level
filesystem without failures. -/
theorem scan_sync_async_agree_witness :
    noFailures (FSNode.dir true [("a.mp4", .file 1), ("sub", .dir true [("b.mkv", .file 2)])])
        = true ∧
    scanDirectory localeCompareModel
        (.dir true [("a.mp4", .file 1), ("sub", .dir true [("b.mkv", .file 2)])]) "" =
      scanDirectoryAsync localeCompareModel
        (.dir true [("a.mp4", .file 1), ("sub", .dir true [("b.mkv", .file 2)])]) "" :=
  ⟨by simp [noFailures, noFailuresList],
   scan_sync_async_agree localeCompareModel _ (by simp [noFailures, noFailuresList]) ""⟩

/-! ## Relative path consistency (C10) -/

theorem noBackslash_append (s t : String) :
    noBackslash (s ++ t) = (noBackslash s && noBackslash t) := by
  simp [noBackslash, String.data_append, List.all_append]

theorem map_slash_id_of_clean (cs : List Char)
    (h : cs.all (fun c => c ≠ '\\') = true) :
    cs.map (fun c => if c = '\\' then '/' else c) = cs := by
  induction cs with
  | nil => simp
  | cons c rest ih =>
    simp only [List.all_cons, Bool.and_eq_true] at h
    simp only [List.map_cons, ih h.2]
    have hc : c ≠ '\\' := by simpa using h.1
    rw [if_neg hc]

theorem slashNormalize_of_noBackslash (s : String) (h : noBackslash s = true) :
    slashNormalize s = s := by
  rw [slashNormalize, noBackslash] at *
  rw [map_slash_id_of_clean s.data h]

theorem noBackslash_childRelPath (p n : String) (hp : noBackslash p = true)
    (hn : noBackslash n = true) : noBackslash (childRelPath p n) = true := by
  rw [childRelPath]
  by_cases h : p = ""
  · rw [if_pos h]; exact hn
  · rw [if_neg h, noBackslash_append, noBackslash_append, hp, hn]
    simp [noBackslash]

theorem relPathsOkList_eq_all (parent : String) (l : List TreeNode) :
    relPathsOkList parent l = l.all (relPathsOk parent) := by
  induction l with
  | nil => simp [relPathsOkList]
  | cons n rest ih => rw [relPathsOkList]; simp [ih]

theorem cleanNamesList_mem {es : List (String × FSNode)} {name : String} {child : FSNode}
    (hmem : (name, child) ∈ es) (h : cleanNamesList es = true) :
    noBackslash name = true ∧ cleanNames child = true := by
  induction es with
  | nil => cases hmem
  | cons e rest ih =>
    obtain ⟨n, c⟩ := e
    rw [cleanNamesList] at h
    simp only [Bool.and_eq_true] at h
    rcases List.mem_cons.mp hmem with hm | hm
    · simp only [Prod.mk.injEq] at hm
      obtain ⟨rfl, rfl⟩ := hm
      exact ⟨h.1.1, h.1.2⟩
    · exact ih hm h.2

theorem scan_relPaths_aux :
    ∀ k, ∀ fs : FSNode, sizeOf fs < k → ∀ (lcmp : String → String → Int) (rp : String),
      cleanNames fs = true → noBackslash rp = true →
      ∀ n ∈ scanDirectoryAsync lcmp fs rp, relPathsOk rp n = true := by
  intro k
  induction k with
  | zero => intro fs h; omega
  | succ k ih =>
    intro fs hk lcmp rp hclean hrp n hn
    match fs with
    | .file _ => simp [scanDirectoryAsync] at hn
    | .statFail => simp [scanDirectoryAsync] at hn
    | .dir false es => simp [scanDirectoryAsync] at hn
    | .dir true es =>
      rw [mem_scanDirectoryAsync, mem_scanEntriesAsync] at hn
      obtain ⟨name, child, hmem, hinc, heq⟩ := hn
      rw [cleanNames] at hclean
      obtain ⟨hname, hchild⟩ := cleanNamesList_mem hmem hclean
      have hszc : sizeOf child < k := by
        have h1 := List.sizeOf_lt_of_mem hmem
        have h2 : sizeOf (FSNode.dir true es) = 1 + sizeOf true + sizeOf es := by simp
        simp only [Prod.mk.sizeOf_spec] at h1
        omega
      have hcp : noBackslash (childRelPath rp name) = true :=
        noBackslash_childRelPath rp name hrp hname
      have hnorm : slashNormalize (childRelPath rp name) = childRelPath rp name :=
        slashNormalize_of_noBackslash _ hcp
      match child with
      | .statFail => simp [entryResult, statOf] at heq
      | .file sz =>
        rw [entryResult] at heq
        simp only [statOf] at heq
        by_cases hv : VIDEO_EXTENSIONS.contains (toLowerCase (extname name)) = true
        · rw [if_neg (by simp), if_pos hv] at heq
          cases heq
          rw [relPathsOk, hnorm]
          simp [hcp]
        · rw [if_neg (by simp), if_neg hv] at heq
          cases heq
      | .dir r es2 =>
        rw [entryResult] at heq
        simp only [statOf] at heq
        rw [if_pos trivial] at heq
        by_cases hl : (scanDirectoryAsync lcmp (.dir r es2) (childRelPath rp name)).length > 0
        · rw [if_pos hl] at heq
          cases heq
          rw [relPathsOk, hnorm]
          simp only [beq_self_eq_true, hcp, Bool.true_and, Bool.and_true]
          rw [relPathsOkList_eq_all, List.all_eq_true]
          intro m hm
          exact ih (.dir r es2) hszc lcmp (childRelPath rp name) hchild hcp m hm
        · rw [if_neg hl] at heq
          cases heq

/-- C10: every node's `relativePath` is consistent with its position in
the output tree: a top-level node's relativePath is its name, a child
node's is its parent's relativePath followed by `/` and its own name,
and no relativePath contains a backslash (given that, as on a real
filesystem, no entry name contains a backslash). -/
theorem scan_relative_paths (lcmp : String → String → Int) (fs : FSNode)
    (h : cleanNames fs = true) :
    relPathsOkList "" (scanDirectoryAsync lcmp fs "") = true := by
  rw [relPathsOkList_eq_all, List.all_eq_true]
  intro n hn
  exact scan_relPaths_aux (sizeOf fs + 1) fs (by omega) lcmp "" h (by simp [noBackslash]) n hn

/-- Witness for C10: path consistency of the scan of a concrete
two-level filesystem. -/
theorem scan_relative_paths_witness :
    relPathsOkList "" (scanDirectoryAsync localeCompareModel
      (.dir true [("season1", .dir true [("pilot.mp4", .file 9)]), ("intro.mov", .file 4)])
      "") = true :=
  scan_relative_paths localeCompareModel _
    (by simp [cleanNames, cleanNamesList, noBackslash])

/-! ## Cache coordinator and watcher (C5-C8) -/

/-- Coordinator invariant: at most one scan coroutine exists, and the
`isScanRunning` flag is set exactly while one does. -/
def coordInv (s : SysState) : Prop :=
  s.runningScans ≤ 1 ∧ (s.isScanRunning = true ↔ s.runningScans = 1)

theorem coordInv_refreshCache {s : SysState} (h : coordInv s) :
    coordInv (refreshCache s) := by
  obtain ⟨h1, h2⟩ := h
  rw [refreshCache]
  by_cases hr : s.isScanRunning = true
  · rw [if_pos hr]
    exact ⟨h1, h2⟩
  · rw [if_neg hr]
    have h0 : s.runningScans = 0 := by
      rcases Nat.lt_or_ge s.runningScans 1 with h | h
      · omega
      · exfalso; exact hr (h2.mpr (by omega))
    constructor
    · simp [h0]
    · simp [h0]

theorem coordInv_concludeScan {s : SysState} (o : ScanOutcome) (h : coordInv s) :
    coordInv (concludeScan o s) := by
  obtain ⟨h1, h2⟩ := h
  rw [concludeScan]
  by_cases hz : s.runningScans = 0
  · rw [if_pos hz]
    exact ⟨h1, h2⟩
  · rw [if_neg hz]
    constructor
    · simp; omega
    · simp; omega

theorem coordInv_advanceTo {s : SysState} (t : Nat) (h : coordInv s) :
    coordInv (advanceTo t s) := by
  rcases hd : s.debounceDeadline with _ | d
  · simpa [advanceTo, hd] using h
  · by_cases hdt : d ≤ t
    · simp only [advanceTo, hd, if_pos hdt]
      exact coordInv_refreshCache (s := { s with debounceDeadline := none }) h
    · simpa [advanceTo, hd, hdt] using h

theorem coordInv_watcherOnChange {s : SysState} (et : String) (fn : Option String)
    (h : coordInv s) : coordInv (watcherOnChange et fn s) := by
  cases fn with
  | none => simpa [watcherOnChange] using h
  | some f =>
    by_cases hig : ¬toLowerCase (extname f) = "" ∧ toLowerCase (extname f) ∉ VIDEO_EXTENSIONS
    · simpa [watcherOnChange, hig] using h
    · simpa [watcherOnChange, hig, coordInv] using And.intro h.1 h.2

theorem coordInv_step {s : SysState} (e : Event) (h : coordInv s) : coordInv (step s e) := by
  match e with
  | .apiRefresh => exact coordInv_refreshCache h
  | .scanConclude o => exact coordInv_concludeScan o h
  | .fsChange t et fn => exact coordInv_watcherOnChange et fn (coordInv_advanceTo t h)
  | .elapse t => exact coordInv_advanceTo t h

theorem coordInv_run (s : SysState) (es : List Event) (h : coordInv s) :
    coordInv (run s es) := by
  induction es generalizing s with
  | nil => exact h
  | cons e rest ih => exact ih (step s e) (coordInv_step e h)

theorem coordInv_initState : coordInv initState := by
  constructor <;> simp [initState]

theorem refreshCache_cachedTree (s : SysState) :
    (refreshCache s).cachedTree = s.cachedTree := by
  rw [refreshCache]; split_ifs <;> rfl

theorem refreshCache_refreshCalls (s : SysState) :
    (refreshCache s).refreshCalls = s.refreshCalls + 1 := by
  rw [refreshCache]; split_ifs <;> rfl

theorem refreshCache_debounceDeadline (s : SysState) :
    (refreshCache s).debounceDeadline = s.debounceDeadline := by
  rw [refreshCache]; split_ifs <;> rfl

theorem advanceTo_cachedTree (t : Nat) (s : SysState) :
    (advanceTo t s).cachedTree = s.cachedTree := by
  rcases hd : s.debounceDeadline with _ | d
  · simp [advanceTo, hd]
  · by_cases hdt : d ≤ t
    · simp [advanceTo, hd, hdt, refreshCache_cachedTree]
    · simp [advanceTo, hd, hdt]

theorem watcherOnChange_cachedTree (et : String) (fn : Option String) (s : SysState) :
    (watcherOnChange et fn s).cachedTree = s.cachedTree := by
  cases fn with
  | none => simp [watcherOnChange]
  | some f =>
    by_cases hig : ¬toLowerCase (extname f) = "" ∧ toLowerCase (extname f) ∉ VIDEO_EXTENSIONS
    · simp [watcherOnChange, hig]
    · simp [watcherOnChange, hig]

theorem concludeScan_failure_cachedTree (s : SysState) :
    (concludeScan .failure s).cachedTree = s.cachedTree := by
  rw [concludeScan]; split_ifs <;> simp [cacheAfter]

theorem step_cachedTree_ne_none {s : SysState} (e : Event) (h : s.cachedTree ≠ none) :
    (step s e).cachedTree ≠ none := by
  match e with
  | .apiRefresh => rw [step, refreshCache_cachedTree]; exact h
  | .scanConclude (.success t) =>
    rw [step, concludeScan]
    split_ifs
    · exact h
    · simp [cacheAfter]
  | .scanConclude .failure => rw [step, concludeScan_failure_cachedTree]; exact h
  | .fsChange t et fn =>
    rw [step, watcherOnChange_cachedTree, advanceTo_cachedTree]; exact h
  | .elapse t => rw [step, advanceTo_cachedTree]; exact h

/-- C5: `GET /api/files` answers 503 with `loading: true` exactly while
the cache is unpopulated; it starts unpopulated and stays so until a
scan succeeds; once populated it answers 200 with the cached tree and
keeps doing so forever, because a failed scan leaves the cache
untouched and only a successful scan ever rewrites it. -/
theorem api_files_cache_contract :
    (apiFiles initState = .notReady 503 true) ∧
    (∀ s : SysState, apiFiles s = .notReady 503 true ↔ s.cachedTree = none) ∧
    (∀ (s : SysState) (t : List TreeNode), s.cachedTree = some t → apiFiles s = .full 200 t) ∧
    (∀ s : SysState, (concludeScan .failure s).cachedTree = s.cachedTree) ∧
    (∀ (s : SysState) (e : Event), s.cachedTree = none →
        (∀ t, e ≠ .scanConclude (.success t)) → (step s e).cachedTree = none) ∧
    (∀ (s : SysState) (es : List Event), s.cachedTree ≠ none →
        (run s es).cachedTree ≠ none) := by
  refine ⟨rfl, ?_, ?_, concludeScan_failure_cachedTree, ?_, ?_⟩
  · intro s
    rcases hd : s.cachedTree with _ | t
    · simp [apiFiles, hd]
    · simp [apiFiles, hd]
  · intro s t ht
    simp [apiFiles, ht]
  · intro s e h0 hne
    match e with
    | .apiRefresh => rw [step, refreshCache_cachedTree]; exact h0
    | .scanConclude (.success t) => exact absurd rfl (hne t)
    | .scanConclude .failure => rw [step, concludeScan_failure_cachedTree]; exact h0
    | .fsChange t et fn =>
      rw [step, watcherOnChange_cachedTree, advanceTo_cachedTree]; exact h0
    | .elapse t => rw [step, advanceTo_cachedTree]; exact h0
  · intro s es
    induction es generalizing s with
    | nil => exact fun h => h
    | cons e rest ih => exact fun h => ih (step s e) (step_cachedTree_ne_none e h)

/-- Witness for C5: with a populated (empty-tree) cache the endpoint
answers 200, and a failed refresh afterwards leaves it populated. -/
theorem api_files_cache_contract_witness :
    apiFiles { initState with cachedTree := some [] } = .full 200 [] ∧
    (run { initState with cachedTree := some [] }
        [.apiRefresh, .scanConclude .failure]).cachedTree ≠ none := by
  obtain ⟨-, -, h2, -, -, h5⟩ := api_files_cache_contract
  exact ⟨h2 _ [] rfl, h5 _ [.apiRefresh, .scanConclude .failure] (by simp)⟩

/-- C6: a `refresh()` while a scan is in flight returns at once and
starts nothing; at most one scan ever executes; concluding a scan —
successfully or by a throw — always clears the in-progress flag, and
with the flag clear the next `refresh()` does start a scan, so a failed
scan never wedges future refreshes; the cache itself changes only when
a scan concludes. -/
theorem refresh_single_flight :
    (∀ s : SysState, s.isScanRunning = true →
        refreshCache s = { s with refreshCalls := s.refreshCalls + 1 }) ∧
    (∀ es : List Event, (run initState es).runningScans ≤ 1) ∧
    (∀ (s : SysState) (o : ScanOutcome), 0 < s.runningScans →
        (concludeScan o s).isScanRunning = false) ∧
    (∀ s : SysState, s.isScanRunning = false →
        (refreshCache s).runningScans = s.runningScans + 1) ∧
    (∀ (s : SysState) (e : Event), (∀ o, e ≠ .scanConclude o) →
        (step s e).cachedTree = s.cachedTree) := by
  refine ⟨?_, ?_, ?_, ?_, ?_⟩
  · intro s h
    rw [refreshCache, if_pos h]
  · intro es
    exact (coordInv_run initState es coordInv_initState).1
  · intro s o h
    rw [concludeScan, if_neg (by omega)]
  · intro s h
    rw [refreshCache, if_neg (by rw [h]; exact Bool.false_ne_true)]
  · intro s e hne
    match e with
    | .apiRefresh => rw [step, refreshCache_cachedTree]
    | .scanConclude o => exact absurd rfl (hne o)
    | .fsChange t et fn => rw [step, watcherOnChange_cachedTree, advanceTo_cachedTree]
    | .elapse t => rw [step, advanceTo_cachedTree]

/-- Witness for C6: concrete states exercising each clause. -/
theorem refresh_single_flight_witness :
    refreshCache { initState with isScanRunning := true } =
      { initState with isScanRunning := true, refreshCalls := 1 } ∧
    (run initState [.apiRefresh, .apiRefresh, .apiRefresh]).runningScans ≤ 1 ∧
    (concludeScan .failure
      { initState with isScanRunning := true, runningScans := 1 }).isScanRunning = false ∧
    (refreshCache initState).runningScans = 1 ∧
    (step { initState with cachedTree := some [] } .apiRefresh).cachedTree = some [] := by
  obtain ⟨h1, h2, h3, h4, h5⟩ := refresh_single_flight
  exact ⟨h1 _ rfl, h2 _,
    h3 { initState with isScanRunning := true, runningScans := 1 } .failure (by decide),
    h4 _ rfl, h5 { initState with cachedTree := some [] } .apiRefresh (by simp)⟩

/-- The watcher's ignore condition for a notification: a present
filename whose lower-cased extension is non-empty and outside the video
allow-list. -/
def watcherIgnores (filename : Option String) : Bool :=
  match filename with
  | some fn =>
    let ext := toLowerCase (extname fn)
    ext != "" && !VIDEO_EXTENSIONS.contains ext
  | none => false

theorem watcherOnChange_ignored {fn : Option String} (et : String) (s : SysState)
    (hig : watcherIgnores fn = true) : watcherOnChange et fn s = s := by
  cases fn with
  | none => simp [watcherIgnores] at hig
  | some f =>
    simp only [watcherIgnores] at hig
    simp at hig
    simp [watcherOnChange, hig.1, hig.2]

theorem watcherOnChange_armed {fn : Option String} (et : String) (s : SysState)
    (hig : watcherIgnores fn = false) :
    watcherOnChange et fn s =
      { s with debounceDeadline := some (s.now + DEBOUNCE_DELAY_MS) } := by
  cases fn with
  | none => simp [watcherOnChange]
  | some f =>
    simp only [watcherIgnores] at hig
    rw [Bool.and_eq_false_iff] at hig
    rcases hig with he | hm
    · have he' : toLowerCase (extname f) = "" := by simpa using he
      simp [watcherOnChange, he']
    · have hm' : toLowerCase (extname f) ∈ VIDEO_EXTENSIONS := by simpa using hm
      simp [watcherOnChange, hm']

/-- C8: the watcher ignores — without arming the debounce timer or
changing anything else — exactly the notifications naming a file whose
non-empty lower-cased extension is outside the video allow-list;
notifications with no filename, with a video extension, or with no
extension at all re-arm the debounce timer. -/
theorem watcher_extension_filter :
    (∀ (s : SysState) (et fn : String),
        toLowerCase (extname fn) ≠ "" → toLowerCase (extname fn) ∉ VIDEO_EXTENSIONS →
        watcherOnChange et (some fn) s = s) ∧
    (∀ (s : SysState) (et : String),
        watcherOnChange et none s =
          { s with debounceDeadline := some (s.now + DEBOUNCE_DELAY_MS) }) ∧
    (∀ (s : SysState) (et fn : String), toLowerCase (extname fn) ∈ VIDEO_EXTENSIONS →
        watcherOnChange et (some fn) s =
          { s with debounceDeadline := some (s.now + DEBOUNCE_DELAY_MS) }) ∧
    (∀ (s : SysState) (et fn : String), toLowerCase (extname fn) = "" →
        watcherOnChange et (some fn) s =
          { s with debounceDeadline := some (s.now + DEBOUNCE_DELAY_MS) }) := by
  refine ⟨?_, ?_, ?_, ?_⟩
  · intro s et fn hne hnv
    exact watcherOnChange_ignored et s (by simp [watcherIgnores, hne, hnv])
  · intro s et
    exact watcherOnChange_armed et s (by simp [watcherIgnores])
  · intro s et fn hv
    exact watcherOnChange_armed et s (by simp [watcherIgnores, hv])
  · intro s et fn he
    exact watcherOnChange_armed et s (by simp [watcherIgnores, he])

/-- Witness for C8: `notes.txt` is ignored; a missing filename,
`clip.mp4` and the extensionless `newdir` all arm the timer. -/
theorem watcher_extension_filter_witness :
    watcherOnChange "change" (some "notes.txt") initState = initState ∧
    watcherOnChange "rename" none initState =
      { initState with debounceDeadline := some (initState.now + DEBOUNCE_DELAY_MS) } ∧
    watcherOnChange "rename" (some "clip.mp4") initState =
      { initState with debounceDeadline := some (initState.now + DEBOUNCE_DELAY_MS) } ∧
    watcherOnChange "rename" (some "newdir") initState =
      { initState with debounceDeadline := some (initState.now + DEBOUNCE_DELAY_MS) } := by
  obtain ⟨h1, h2, h3, h4⟩ := watcher_extension_filter
  exact ⟨h1 initState "change" "notes.txt" (by decide) (by decide), h2 initState "rename",
    h3 initState "rename" "clip.mp4" (by decide), h4 initState "rename" "newdir" (by decide)⟩

/-- A burst of filesystem notifications, as watcher events at their
respective times (`fs.watch` reports an `eventType` of `"rename"` or
`"change"`; which one is irrelevant to the handler). -/
def burstEvents (burst : List (Nat × Option String)) : List Event :=
  burst.map (fun e => .fsChange e.1 "rename" e.2)

theorem advanceTo_no_fire {s : SysState} {t : Nat}
    (h : ∀ d, s.debounceDeadline = some d → t < d) :
    advanceTo t s = { s with now := t } := by
  rcases hd : s.debounceDeadline with _ | d
  · simp [advanceTo, hd]
  · have ht := h d hd
    have : ¬d ≤ t := by omega
    simp [advanceTo, hd, this]

theorem advanceTo_fire {s : SysState} {t d : Nat} (hd : s.debounceDeadline = some d)
    (hdt : d ≤ t) :
    advanceTo t s = { refreshCache { s with debounceDeadline := none } with now := t } := by
  simp [advanceTo, hd, hdt]

theorem burst_aux :
    ∀ (rest : List (Nat × Option String)) (first : Nat × Option String) (s : SysState),
      (∀ e ∈ first :: rest, watcherIgnores e.2 = false) →
      List.Chain' (fun a b => a.1 ≤ b.1 ∧ b.1 < a.1 + DEBOUNCE_DELAY_MS) (first :: rest) →
      s.now ≤ first.1 →
      (∀ d, s.debounceDeadline = some d → first.1 < d) →
      (run s (burstEvents (first :: rest))).refreshCalls = s.refreshCalls ∧
      (run s (burstEvents (first :: rest))).runningScans = s.runningScans ∧
      (run s (burstEvents (first :: rest))).isScanRunning = s.isScanRunning ∧
      (run s (burstEvents (first :: rest))).cachedTree = s.cachedTree ∧
      (run s (burstEvents (first :: rest))).now = (rest.getLastD first).1 ∧
      (run s (burstEvents (first :: rest))).debounceDeadline =
        some ((rest.getLastD first).1 + DEBOUNCE_DELAY_MS) := by
  intro rest
  induction rest with
  | nil =>
    intro first s hq hch hnow hdl
    have hqf : watcherIgnores first.2 = false := hq first (by simp)
    have hrun : run s (burstEvents [first]) =
        watcherOnChange "rename" first.2 (advanceTo first.1 s) := by
      simp [run, burstEvents, step]
    rw [hrun, advanceTo_no_fire hdl, watcherOnChange_armed _ _ hqf]
    simp [List.getLastD]
  | cons e2 rest ih =>
    intro first s hq hch hnow hdl
    have hqf : watcherIgnores first.2 = false := hq first (by simp)
    have hrel : first.1 ≤ e2.1 ∧ e2.1 < first.1 + DEBOUNCE_DELAY_MS :=
      (List.chain'_cons.mp hch).1
    have hrun : run s (burstEvents (first :: e2 :: rest)) =
        run (watcherOnChange "rename" first.2 (advanceTo first.1 s))
          (burstEvents (e2 :: rest)) := by
      simp [run, burstEvents, step]
    rw [hrun, advanceTo_no_fire hdl, watcherOnChange_armed _ _ hqf]
    have := ih e2
      { s with now := first.1, debounceDeadline := some (first.1 + DEBOUNCE_DELAY_MS) }
      (fun e he => hq e (List.mem_cons_of_mem _ he))
      (List.chain'_cons.mp hch).2
      (by simpa using hrel.1)
      (by intro d hd; simp at hd; omega)
    rw [List.getLastD_cons]
    exact this

/-- C7: a burst of qualifying change notifications, each falling inside
the 2000 ms debounce window of its predecessor, performs no refresh
while it lasts and leaves exactly one armed timer, due 2 s after the
last event; when that deadline passes, exactly one `refresh()` results
and the timer is cleared. -/
theorem debounce_burst_single_refresh
    (first : Nat × Option String) (rest : List (Nat × Option String)) (s : SysState)
    (hq : ∀ e ∈ first :: rest, watcherIgnores e.2 = false)
    (hch : List.Chain' (fun a b => a.1 ≤ b.1 ∧ b.1 < a.1 + DEBOUNCE_DELAY_MS) (first :: rest))
    (hnow : s.now ≤ first.1) (hdl : s.debounceDeadline = none) :
    (run s (burstEvents (first :: rest))).refreshCalls = s.refreshCalls ∧
    (run s (burstEvents (first :: rest))).debounceDeadline =
      some ((rest.getLastD first).1 + DEBOUNCE_DELAY_MS) ∧
    ∀ t, (rest.getLastD first).1 + DEBOUNCE_DELAY_MS ≤ t →
      (advanceTo t (run s (burstEvents (first :: rest)))).refreshCalls =
        s.refreshCalls + 1 ∧
      (advanceTo t (run s (burstEvents (first :: rest)))).debounceDeadline = none := by
  obtain ⟨hc, -, -, -, -, hd⟩ :=
    burst_aux rest first s hq hch hnow (by intro d h; rw [hdl] at h; cases h)
  refine ⟨hc, hd, ?_⟩
  intro t ht
  rw [advanceTo_fire hd ht]
  constructor
  · simp [refreshCache_refreshCalls, hc]
  · simp [refreshCache_debounceDeadline]

/-- Witness for C7: a three-event burst at times 0, 1000, 1500 leaves
one timer due at 3500 and no refresh; at time 3500 exactly one refresh
fires and the timer clears. -/
theorem debounce_burst_single_refresh_witness :
    (run initState (burstEvents [(0, some "a.mp4"), (1000, none), (1500, some "newdir")])).refreshCalls = 0 ∧
    (run initState (burstEvents [(0, some "a.mp4"), (1000, none), (1500, some "newdir")])).debounceDeadline = some 3500 ∧
    (advanceTo 3500 (run initState (burstEvents [(0, some "a.mp4"), (1000, none), (1500, some "newdir")]))).refreshCalls = 1 ∧
    (advanceTo 3500 (run initState (burstEvents [(0, some "a.mp4"), (1000, none), (1500, some "newdir")]))).debounceDeadline = none := by
  obtain ⟨h1, h2, h3⟩ := debounce_burst_single_refresh (0, some "a.mp4")
    [(1000, none), (1500, some "newdir")] initState (by decide)
    (by simp [List.chain'_cons, DEBOUNCE_DELAY_MS]) (by decide) rfl
  obtain ⟨h4, h5⟩ := h3 3500 (by decide)
  exact ⟨h1, h2, h4, h5⟩
